import Mathlib

/-!
Verification development for the darna repository.

This file shallowly embeds the two packages that the checked claims are
about:

* `internal/graph` (graph.go): the symbol dependency graph, its
  construction helpers (`AddDependency`, `registerDefinitions`,
  `symbolID`, `callerSymbolID`) and the transitive-closure engine
  (`TransitiveDeps`, `TransitiveDependents`);
* `internal/validator` (validator.go): file categorisation, overlay
  construction, violation detection and committable-set selection;
* `internal/git` (git.go): the pure helper `FilterGoFiles` and the
  `FileStatus` record.

Go maps (`map[string]T`) are modelled as association lists; Go map-sets
(`map[string]bool`, `map[string]struct{}`) as lists of keys, with
membership via `List.contains`.  External effectful collaborators
(`filepath.Abs`/`filepath.Rel` path conversion, `git.GetStagedContent`)
are passed in as function parameters.  The recursive DFS of
`TransitiveDeps` is embedded as a worklist loop with an explicit
iteration budget, which is proven sufficient below (the membership
characterisation holds for arbitrary, including cyclic, graphs).
-/

namespace Darna

/-! ## internal/graph: data model (graph.go) -/

/-- `Symbol` from graph.go.  `Pos` (a `token.Position`, display only) is
not modelled; no claim refers to it. -/
structure Symbol where
  ID : String
  Name : String
  Package : String
  Kind : String
  File : String
  deriving DecidableEq, Repr

/-- `DependencyGraph` from graph.go.  The four Go maps are modelled as
association lists keyed by symbol id (for `Symbols`), file path (for
`FileSyms`) and symbol id (for the two edge maps, each value being the
key set of the inner Go set-map). -/
structure DependencyGraph where
  Symbols : List (String × Symbol)
  FileSyms : List (String × List String)
  OutEdges : List (String × List String)
  InEdges : List (String × List String)
  deriving DecidableEq, Repr

/-- `NewDependencyGraph` from graph.go: all four maps empty. -/
def NewDependencyGraph : DependencyGraph := ⟨[], [], [], []⟩

/-- Indexing a Go `map[string][]string` / `map[string]map[string]struct{}`:
a missing key yields the empty list (Go's zero value ranges over nothing). -/
def lookupList (m : List (String × List String)) (k : String) : List String :=
  match m.find? (fun p => p.1 == k) with
  | some p => p.2
  | none => []

/-- Indexing `g.Symbols`: a missing key yields Go's `nil` pointer,
modelled as `none`. -/
def lookupSym (m : List (String × Symbol)) (k : String) : Option Symbol :=
  (m.find? (fun p => p.1 == k)).map (fun p => p.2)

/-- The edge-map update performed by `AddDependency` on one of the two
edge maps: ensure an entry for `k` exists and insert `v` into its set
(Go set-map insertion is idempotent, hence the `contains` guard). -/
def addEdge : List (String × List String) → String → String → List (String × List String)
  | [], k, v => [(k, [v])]
  | (k', vs) :: rest, k, v =>
    if k' = k then (k', if vs.contains v then vs else vs ++ [v]) :: rest
    else (k', vs) :: addEdge rest k v

/-- `AddDependency` from graph.go: records the forward edge in `OutEdges`
and the mirrored reverse edge in `InEdges`. -/
def DependencyGraph.AddDependency (g : DependencyGraph) (src dst : String) : DependencyGraph :=
  { g with OutEdges := addEdge g.OutEdges src dst
           InEdges := addEdge g.InEdges dst src }

/-! ## internal/graph: transitive closure engine

The Go code uses a recursive `dfs` closure over a `visited` map plus a
`result` slice; an id is appended to `result` exactly when it is first
marked visited, so the two always hold the same ids and `visited` below
doubles as the ordered result list.  The recursion is rendered as an
explicit worklist (`stack`), popping one id per step: this performs the
same visited-guarded depth-first traversal.  `fuel` bounds the number of
loop steps; `graphFuel` below is proven large enough that the traversal
always runs to completion. -/

/-- Worklist depth-first search with a visited/result list. -/
def dfsAux (adj : String → List String) : Nat → List String → List String → List String
  | 0, _, visited => visited
  | _ + 1, [], visited => visited
  | fuel + 1, id :: rest, visited =>
    if visited.contains id then dfsAux adj fuel rest visited
    else dfsAux adj fuel (adj id ++ rest) (visited ++ [id])

/-- All edge targets appearing in an edge map. -/
def edgeTargets (edges : List (String × List String)) : List String :=
  (edges.map (fun p => p.2)).flatten

/-- Iteration budget for the DFS over a given edge map; proven
sufficient for full traversal (`dfsAux_complete` below). -/
def graphFuel (edges : List (String × List String)) : Nat :=
  ((edgeTargets edges).length + 2) * ((edgeTargets edges).length + 2)

/-- `TransitiveDeps` from graph.go: DFS from `startID` over forward
edges, returning every discovered id once, in discovery order. -/
def DependencyGraph.TransitiveDeps (g : DependencyGraph) (startID : String) : List String :=
  dfsAux (fun id => lookupList g.OutEdges id) (graphFuel g.OutEdges) [startID] []

/-- `TransitiveDependents` from graph.go: the same traversal over the
reverse edges. -/
def DependencyGraph.TransitiveDependents (g : DependencyGraph) (targetID : String) : List String :=
  dfsAux (fun id => lookupList g.InEdges id) (graphFuel g.InEdges) [targetID] []

/-- Reachability along an edge map: the reflexive-transitive closure of
"`b` is among the targets recorded for `a`". -/
def Reaches (edges : List (String × List String)) (a b : String) : Prop :=
  Relation.ReflTransGen (fun x y => y ∈ lookupList edges x) a b

/-! ### DFS lemmas -/

theorem dfsAux_succ_mem (adj : String → List String) (n : Nat)
    (id : String) (rest visited : List String) (h : id ∈ visited) :
    dfsAux adj (n + 1) (id :: rest) visited = dfsAux adj n rest visited := by
  simp [dfsAux, h]

theorem dfsAux_succ_not_mem (adj : String → List String) (n : Nat)
    (id : String) (rest visited : List String) (h : id ∉ visited) :
    dfsAux adj (n + 1) (id :: rest) visited
      = dfsAux adj n (adj id ++ rest) (visited ++ [id]) := by
  simp [dfsAux, h]

theorem dfsAux_mem_of_mem (adj : String → List String) :
    ∀ (fuel : Nat) (stack visited : List String) (x : String),
      x ∈ visited → x ∈ dfsAux adj fuel stack visited := by
  intro fuel
  induction fuel with
  | zero => intro stack visited x hx; simpa [dfsAux] using hx
  | succ n ih =>
    intro stack visited x hx
    match stack with
    | [] => simpa [dfsAux] using hx
    | id :: rest =>
      by_cases h : id ∈ visited
      · rw [dfsAux_succ_mem adj n id rest visited h]
        exact ih rest visited x hx
      · rw [dfsAux_succ_not_mem adj n id rest visited h]
        exact ih _ _ x (List.mem_append.mpr (Or.inl hx))

theorem dfsAux_nodup (adj : String → List String) :
    ∀ (fuel : Nat) (stack visited : List String),
      visited.Nodup → (dfsAux adj fuel stack visited).Nodup := by
  intro fuel
  induction fuel with
  | zero => intro stack visited hv; simpa [dfsAux] using hv
  | succ n ih =>
    intro stack visited hv
    match stack with
    | [] => simpa [dfsAux] using hv
    | id :: rest =>
      by_cases h : id ∈ visited
      · rw [dfsAux_succ_mem adj n id rest visited h]
        exact ih rest visited hv
      · rw [dfsAux_succ_not_mem adj n id rest visited h]
        refine ih _ _ ?_
        simp [List.nodup_append, hv, h]

theorem dfsAux_closed_under (adj : String → List String) (P : String → Prop)
    (hP : ∀ a, P a → ∀ b ∈ adj a, P b) :
    ∀ (fuel : Nat) (stack visited : List String),
      (∀ s ∈ stack, P s) → (∀ v ∈ visited, P v) →
      ∀ x ∈ dfsAux adj fuel stack visited, P x := by
  intro fuel
  induction fuel with
  | zero => intro stack visited _ hv x hx; exact hv x (by simpa [dfsAux] using hx)
  | succ n ih =>
    intro stack visited hs hv x hx
    match stack with
    | [] => exact hv x (by simpa [dfsAux] using hx)
    | id :: rest =>
      by_cases h : id ∈ visited
      · rw [dfsAux_succ_mem adj n id rest visited h] at hx
        exact ih rest visited (fun s hsm => hs s (by simp [hsm])) hv x hx
      · have hPid : P id := hs id (by simp)
        rw [dfsAux_succ_not_mem adj n id rest visited h] at hx
        refine ih (adj id ++ rest) (visited ++ [id]) ?_ ?_ x hx
        · intro s hsm
          rcases List.mem_append.mp hsm with hL | hR
          · exact hP id hPid s hL
          · exact hs s (by simp [hR])
        · intro v hvm
          rcases List.mem_append.mp hvm with hL | hR
          · exact hv v hL
          · simp at hvm hR; simpa [hR] using hPid

/-- Marking one more unvisited universe element visited drops the
number of unvisited universe elements by exactly one. -/
theorem filter_unvisited_succ (U visited : List String) (id : String)
    (hU : id ∈ U) (hv : id ∉ visited) :
    (U.dedup.filter (fun u => !(visited ++ [id]).contains u)).length + 1
      = (U.dedup.filter (fun u => !visited.contains u)).length := by
  have hpred : ∀ u : String,
      (!(visited ++ [id]).contains u) = ((!visited.contains u) && !(u == id)) := by
    intro u
    by_cases hu : u = id
    · subst hu; simp [hv]
    · by_cases hmem : u ∈ visited <;> simp [hu, hmem]
  have hfilter :
      U.dedup.filter (fun u => !(visited ++ [id]).contains u)
        = (U.dedup.filter (fun u => !visited.contains u)).filter (fun u => !(u == id)) := by
    rw [List.filter_filter]
    exact List.filter_congr (fun u _ => by rw [hpred u, Bool.and_comm])
  rw [hfilter]
  set l := U.dedup.filter (fun u => !visited.contains u) with hl
  have hnodup : l.Nodup := List.Nodup.filter _ (List.nodup_dedup U)
  have hidl : id ∈ l := by
    rw [hl]
    exact List.mem_filter.mpr ⟨List.mem_dedup.mpr hU, by simpa using hv⟩
  have herase : l.filter (fun u => !(u == id)) = l.erase id := by
    rw [List.Nodup.erase_eq_filter hnodup]
    exact List.filter_congr (fun u _ => by simp [bne])
  rw [herase, List.length_erase_of_mem hidl]
  have : 0 < l.length := List.length_pos.mpr (List.ne_nil_of_mem hidl)
  omega

/-- Fuel sufficiency and closedness for the worklist DFS: with the stated
fuel budget the traversal drains the worklist fully, so the returned list
contains the whole stack and visited list and is closed under `adj`. -/
theorem dfsAux_complete (adj : String → List String) (U : List String) (maxA : Nat)
    (hadj : ∀ x y, y ∈ adj x → y ∈ U) (hA : ∀ x, (adj x).length ≤ maxA) :
    ∀ (fuel : Nat) (stack visited : List String),
      (∀ x ∈ stack, x ∈ U) →
      (∀ x ∈ visited, ∀ y ∈ adj x, y ∈ visited ∨ y ∈ stack) →
      stack.length + (U.dedup.filter (fun u => !visited.contains u)).length * (maxA + 1) ≤ fuel →
      (∀ x ∈ stack, x ∈ dfsAux adj fuel stack visited) ∧
      (∀ x ∈ visited, x ∈ dfsAux adj fuel stack visited) ∧
      (∀ x ∈ dfsAux adj fuel stack visited, ∀ y ∈ adj x, y ∈ dfsAux adj fuel stack visited) := by
  intro fuel
  induction fuel with
  | zero =>
    intro stack visited hstk hcl hfuel
    have hempty : stack = [] := by
      cases stack with
      | nil => rfl
      | cons a l => simp at hfuel
    subst hempty
    refine ⟨by simp, fun x hx => by simpa [dfsAux] using hx, ?_⟩
    intro x hx y hy
    have hx' : x ∈ visited := by simpa [dfsAux] using hx
    rcases hcl x hx' y hy with h | h
    · simpa [dfsAux] using h
    · simp at h
  | succ n ih =>
    intro stack visited hstk hcl hfuel
    match stack with
    | [] =>
      refine ⟨by simp, fun x hx => by simpa [dfsAux] using hx, ?_⟩
      intro x hx y hy
      have hx' : x ∈ visited := by simpa [dfsAux] using hx
      rcases hcl x hx' y hy with h | h
      · simpa [dfsAux] using h
      · simp at h
    | id :: rest =>
      by_cases h : id ∈ visited
      · rw [dfsAux_succ_mem adj n id rest visited h]
        have hcl' : ∀ x ∈ visited, ∀ y ∈ adj x, y ∈ visited ∨ y ∈ rest := by
          intro x hx y hy
          rcases hcl x hx y hy with hv' | hs'
          · exact Or.inl hv'
          · rcases List.mem_cons.mp hs' with hEq | hR
            · exact Or.inl (hEq ▸ h)
            · exact Or.inr hR
        have hfuel' :
            rest.length
              + (U.dedup.filter (fun u => !visited.contains u)).length * (maxA + 1) ≤ n := by
          simp only [List.length_cons] at hfuel; omega
        obtain ⟨c1, c2, c3⟩ := ih rest visited (fun x hx => hstk x (by simp [hx])) hcl' hfuel'
        refine ⟨?_, c2, c3⟩
        intro x hx
        rcases List.mem_cons.mp hx with hEq | hR
        · exact hEq ▸ c2 id h
        · exact c1 x hR
      · rw [dfsAux_succ_not_mem adj n id rest visited h]
        have hidU : id ∈ U := hstk id (by simp)
        have hstk' : ∀ x ∈ adj id ++ rest, x ∈ U := by
          intro x hx
          rcases List.mem_append.mp hx with hL | hR
          · exact hadj id x hL
          · exact hstk x (by simp [hR])
        have hcl' : ∀ x ∈ visited ++ [id], ∀ y ∈ adj x,
            y ∈ visited ++ [id] ∨ y ∈ adj id ++ rest := by
          intro x hx y hy
          rcases List.mem_append.mp hx with hL | hR
          · rcases hcl x hL y hy with hv' | hs'
            · exact Or.inl (List.mem_append.mpr (Or.inl hv'))
            · rcases List.mem_cons.mp hs' with hEq | hRr
              · exact Or.inl (List.mem_append.mpr (Or.inr (by simp [hEq])))
              · exact Or.inr (List.mem_append.mpr (Or.inr hRr))
          · simp at hR
            subst hR
            exact Or.inr (List.mem_append.mpr (Or.inl hy))
        have hdrop := filter_unvisited_succ U visited id hidU h
        have hfuel' :
            (adj id ++ rest).length
              + (U.dedup.filter (fun u => !(visited ++ [id]).contains u)).length
                  * (maxA + 1) ≤ n := by
          have hadjlen : (adj id).length ≤ maxA := hA id
          set F : Nat := (U.dedup.filter (fun u => !visited.contains u)).length with hF
          set F' : Nat :=
            (U.dedup.filter (fun u => !(visited ++ [id]).contains u)).length with hF'
          have hFF : F' + 1 = F := hdrop
          have hmul : F * (maxA + 1) = F' * (maxA + 1) + (maxA + 1) := by
            rw [← hFF, Nat.succ_mul]
          simp only [List.length_cons, List.length_append] at hfuel ⊢
          omega
        obtain ⟨c1, c2, c3⟩ := ih (adj id ++ rest) (visited ++ [id]) hstk' hcl' hfuel'
        have hvis : ∀ x ∈ visited, x ∈ dfsAux adj n (adj id ++ rest) (visited ++ [id]) :=
          fun x hx => c2 x (List.mem_append.mpr (Or.inl hx))
        refine ⟨?_, hvis, c3⟩
        intro x hx
        rcases List.mem_cons.mp hx with hEq | hR
        · exact hEq ▸ c2 id (List.mem_append.mpr (Or.inr (by simp)))
        · exact c1 x (List.mem_append.mpr (Or.inr hR))

theorem lookupList_cases (edges : List (String × List String)) (x : String) :
    lookupList edges x = [] ∨ ∃ p ∈ edges, lookupList edges x = p.2 := by
  unfold lookupList
  cases h : edges.find? (fun p => p.1 == x) with
  | none => exact Or.inl rfl
  | some p => exact Or.inr ⟨p, List.mem_of_find?_eq_some h, rfl⟩

theorem mem_edgeTargets_of_mem_lookupList (edges : List (String × List String))
    (x y : String) (hy : y ∈ lookupList edges x) : y ∈ edgeTargets edges := by
  rcases lookupList_cases edges x with h | ⟨p, hp, h⟩
  · rw [h] at hy; simp at hy
  · rw [h] at hy
    exact List.mem_flatten.mpr ⟨p.2, List.mem_map_of_mem _ hp, hy⟩

theorem length_le_flatten_of_mem {α : Type} (l : List (List α)) (m : List α)
    (hm : m ∈ l) : m.length ≤ l.flatten.length := by
  induction l with
  | nil => simp at hm
  | cons a t ih =>
    rcases List.mem_cons.mp hm with hEq | hR
    · subst hEq; simp
    · have := ih hR
      simp only [List.flatten_cons, List.length_append]
      omega

theorem lookupList_length_le (edges : List (String × List String)) (x : String) :
    (lookupList edges x).length ≤ (edgeTargets edges).length := by
  rcases lookupList_cases edges x with h | ⟨p, hp, h⟩
  · simp [h]
  · rw [h]
    exact length_le_flatten_of_mem _ _ (List.mem_map_of_mem _ hp)

/-- The DFS of graph.go computes exactly reachability: membership in the
result characterises forward reachability along the edge map, for every
graph (cyclic graphs included). -/
theorem mem_dfs_iff (edges : List (String × List String)) (start y : String) :
    y ∈ dfsAux (fun id => lookupList edges id) (graphFuel edges) [start] []
      ↔ Reaches edges start y := by
  constructor
  · intro hy
    refine dfsAux_closed_under _ (Reaches edges start) ?_ _ [start] [] ?_ (by simp) y hy
    · intro a ha b hb
      exact Relation.ReflTransGen.tail ha hb
    · intro s hs
      simp at hs
      subst hs
      exact Relation.ReflTransGen.refl
  · intro hreach
    set U : List String := start :: edgeTargets edges with hU
    have hadj : ∀ x y', y' ∈ lookupList edges x → y' ∈ U := by
      intro x y' hy'
      exact List.mem_cons.mpr (Or.inr (mem_edgeTargets_of_mem_lookupList edges x y' hy'))
    have hA : ∀ x, (lookupList edges x).length ≤ (edgeTargets edges).length :=
      fun x => lookupList_length_le edges x
    have hfuel :
        ([start].length)
          + (U.dedup.filter (fun u => !([] : List String).contains u)).length
              * ((edgeTargets edges).length + 1) ≤ graphFuel edges := by
      have h1 : (U.dedup.filter (fun u => !([] : List String).contains u)) = U.dedup := by
        simp
      have h2 : U.dedup.length ≤ U.length := List.Sublist.length_le (List.dedup_sublist U)
      have h3 : U.length = (edgeTargets edges).length + 1 := by simp [hU]
      set t : Nat := (edgeTargets edges).length with ht
      have h4 : U.dedup.length ≤ t + 1 := by omega
      have h5 : 1 + U.dedup.length * (t + 1) ≤ 1 + (t + 1) * (t + 1) :=
        Nat.add_le_add_left (Nat.mul_le_mul_right _ h4) 1
      have h6 : 1 + (t + 1) * (t + 1) ≤ (t + 2) * (t + 2) := by nlinarith
      simp only [List.length_cons, List.length_nil, graphFuel, ← ht, h1]
      omega
    obtain ⟨c1, _, c3⟩ :=
      dfsAux_complete (fun id => lookupList edges id) U ((edgeTargets edges).length)
        hadj hA (graphFuel edges) [start] []
        (by intro x hx; simp at hx; subst hx; exact List.mem_cons_self _ _)
        (by intro x hx; simp at hx)
        hfuel
    have hstart : start ∈ dfsAux (fun id => lookupList edges id) (graphFuel edges) [start] [] :=
      c1 start (by simp)
    clear c1
    induction hreach with
    | refl => exact hstart
    | tail _ hbc ih => exact c3 _ ih _ hbc

/-- Membership characterisation of `TransitiveDeps`. -/
theorem mem_transitiveDeps_iff (g : DependencyGraph) (id y : String) :
    y ∈ g.TransitiveDeps id ↔ Reaches g.OutEdges id y :=
  mem_dfs_iff g.OutEdges id y

/-- Membership characterisation of `TransitiveDependents`. -/
theorem mem_transitiveDependents_iff (g : DependencyGraph) (id y : String) :
    y ∈ g.TransitiveDependents id ↔ Reaches g.InEdges id y :=
  mem_dfs_iff g.InEdges id y

theorem transitiveDeps_nodup (g : DependencyGraph) (id : String) :
    (g.TransitiveDeps id).Nodup :=
  dfsAux_nodup _ _ _ _ (by simp)

theorem transitiveDependents_nodup (g : DependencyGraph) (id : String) :
    (g.TransitiveDependents id).Nodup :=
  dfsAux_nodup _ _ _ _ (by simp)

theorem self_mem_transitiveDeps (g : DependencyGraph) (id : String) :
    id ∈ g.TransitiveDeps id :=
  (mem_transitiveDeps_iff g id id).mpr Relation.ReflTransGen.refl

theorem self_mem_transitiveDependents (g : DependencyGraph) (id : String) :
    id ∈ g.TransitiveDependents id :=
  (mem_transitiveDependents_iff g id id).mpr Relation.ReflTransGen.refl

theorem mem_lookupList_addEdge (es : List (String × List String)) (k v : String) :
    v ∈ lookupList (addEdge es k v) k := by
  induction es with
  | nil =>
    simp [addEdge, lookupList]
  | cons p rest ih =>
    rcases p with ⟨k', vs⟩
    by_cases hk : k' = k
    · subst hk
      by_cases hv : v ∈ vs
      · simp [addEdge, lookupList, hv]
      · simp [addEdge, lookupList, hv]
    · simp only [addEdge, if_neg hk]
      have hne : (k' == k) = false := by simpa using hk
      simpa [lookupList, List.find?, hne] using ih

/-! ## internal/graph: symbol registration (graph.go)

`registerDefinitions` walks `pkg.TypesInfo.Defs`; `symbolID` and
`callerSymbolID` synthesise ids.  The frontend objects they consume are
modelled by `TypesObject` (a `types.Object`) and `FuncDecl` (an
`ast.FuncDecl`).  The fields record exactly the observations the Go code
makes of those values. -/

/-- Model of a `go/types` `types.Object` as observed by graph.go.
`pkgPath` is `obj.Pkg().Path()` (`none` models a nil `obj.Pkg()`, i.e. a
built-in).  `name` is `obj.Name()`: the object's bare declared name — in
`go/types` a method's `Name()` is the method name alone, the receiver
type is carried in the signature, not in `Name()`; `recvTypeName`
records that receiver base-type name for method objects (`none` for
non-methods) so that statements can refer to it, but no accessor the Go
code calls exposes it through `Name()`.  `inPkgScope` is the test
`obj.Parent() == pkg.Types.Scope()`: false for methods (their `Parent()`
is nil in `go/types`), struct fields and locals.  `file` is
`pkg.Fset.Position(obj.Pos()).Filename` and `kind` is
`analyzer.ObjectKind(obj)`. -/
structure TypesObject where
  pkgPath : Option String
  name : String
  recvTypeName : Option String
  inPkgScope : Bool
  file : String
  kind : String
  deriving DecidableEq, Repr

/-- `symbolID` from graph.go: `obj.Pkg().Path() + "." + obj.Name()`,
with `""` for a nil package.  This id is used both when registering
definitions and when recording a reference's callee. -/
def symbolID (obj : TypesObject) : String :=
  match obj.pkgPath with
  | none => ""
  | some p => p ++ "." ++ obj.name

/-- Model of the receiver type expression of an `ast.FuncDecl`
(`fn.Recv.List[0].Type`): an identifier, a pointer (`*ast.StarExpr`)
around an inner expression, or any other expression shape. -/
inductive RecvAstExpr where
  | ident (name : String)
  | star (inner : RecvAstExpr)
  | other
  deriving DecidableEq, Repr

/-- Model of an `ast.FuncDecl` as observed by `callerSymbolID`:
the declared name and, when the declaration has a receiver
(`fn.Recv != nil`), the receiver field type list (`fn.Recv.List`). -/
structure FuncDecl where
  name : String
  recv : Option (List RecvAstExpr)
  deriving DecidableEq, Repr

/-- `callerSymbolID` from graph.go: plain functions get
`pkg.PkgPath + "." + name`; a method strips ONE level of pointer
indirection from its receiver type and, when an identifier remains,
gets `pkg.PkgPath + "." + recvName + "." + name`; otherwise `""`
(an empty receiver list also yields `""`). -/
def callerSymbolID (pkgPath : String) (fn : FuncDecl) : String :=
  match fn.recv with
  | none => pkgPath ++ "." ++ fn.name
  | some [] => ""
  | some (recvType :: _) =>
    let recvType' := match recvType with
      | RecvAstExpr.star inner => inner
      | t => t
    match recvType' with
    | RecvAstExpr.ident n => pkgPath ++ "." ++ n ++ "." ++ fn.name
    | _ => ""

/-- Go map insertion `g.Symbols[sym.ID] = sym`: replace the entry for an
existing key, otherwise append a new one. -/
def insertSymbol : List (String × Symbol) → String → Symbol → List (String × Symbol)
  | [], id, s => [(id, s)]
  | (k, v) :: rest, id, s =>
    if k = id then (k, s) :: rest else (k, v) :: insertSymbol rest id s

/-- `g.FileSyms[sym.File] = append(g.FileSyms[sym.File], sym.ID)`:
append the id to the file's list, creating the entry if missing. -/
def appendFileSym : List (String × List String) → String → String → List (String × List String)
  | [], file, id => [(file, [id])]
  | (k, v) :: rest, file, id =>
    if k = file then (k, v ++ [id]) :: rest else (k, v) :: appendFileSym rest file id

/-- `registerDefinitions` from graph.go: for every object of the
package's definition map, skip it when its package is nil or it is not
directly in the package scope; otherwise build the `Symbol` and insert
it into the symbol table and the defining file's symbol list. -/
def registerDefinitions (g : DependencyGraph) (defs : List TypesObject) : DependencyGraph :=
  defs.foldl
    (fun g obj =>
      match obj.pkgPath with
      | none => g
      | some p =>
        if obj.inPkgScope then
          let sym : Symbol :=
            { ID := symbolID obj, Name := obj.name, Package := p
              Kind := obj.kind, File := obj.file }
          { g with Symbols := insertSymbol g.Symbols sym.ID sym
                   FileSyms := appendFileSym g.FileSyms sym.File sym.ID }
        else g)
    g

/-! ## internal/git (git.go) -/

/-- `FileStatus` from git.go: the two porcelain status bytes of one
file, index (staging) state first, worktree state second. -/
structure FileStatus where
  Staging : Char
  Worktree : Char
  deriving DecidableEq, Repr

/-- `strings.HasPrefix(s, pre)`: Go compares the leading bytes; on
UTF-8 data this coincides with char-list prefixing, which evaluates
inside the kernel. -/
def strStartsWith (s pre : String) : Bool := pre.data.isPrefixOf s.data

/-- `strings.HasSuffix(s, suf)`, modelled like `strStartsWith`. -/
def strEndsWith (s suf : String) : Bool := suf.data.isSuffixOf s.data

/-- `FilterGoFiles` from git.go: keep the paths ending in `.go`. -/
def FilterGoFiles (files : List String) : List String :=
  files.filter (fun f => strEndsWith f ".go")

/-! ## internal/validator (validator.go)

The `statuses` map returned by `git.GetAllFileStatus` is modelled as an
association list of repo-relative path and `FileStatus`.  The path
conversions `filepath.Abs(filepath.Join(absWorkDir, file))` and
`filepath.Rel(absWorkDir, file)` are pure given a fixed working
directory and are passed in as functions `abs` and `rel`
(`filepath.Abs` only fails when the working directory cannot be
resolved, in which case the operation aborted before these loops run,
so the conversions are modelled as total). -/

/-- `Violation` from validator.go. -/
structure Violation where
  StagedFile : String
  StagedSymbol : String
  MissingFile : String
  MissingSymbol : String
  deriving DecidableEq, Repr

/-- The staged-file condition of `categorizeFiles`/`getCandidates`:
`status.Staging != ' ' && status.Staging != '?'`. -/
def stagedCond (st : FileStatus) : Bool :=
  st.Staging != ' ' && st.Staging != '?'

/-- The not-staged/changeset condition of `categorizeFiles`,
`getCandidates` and `buildChangesetMap`:
`status.Worktree != ' ' || status.Staging == '?'`. -/
def notStagedCond (st : FileStatus) : Bool :=
  st.Worktree != ' ' || st.Staging == '?'

/-- `categorizeFiles` from validator.go: returns the staged file list,
the staged set and the not-staged set (the latter two are Go
`map[string]bool` key sets, modelled as lists).  In the Go loop `staged`
and `stagedSet` receive exactly the same paths, so both components reuse
one list. -/
def categorizeFiles (abs : String → String) (statuses : List (String × FileStatus)) :
    List String × List String × List String :=
  let staged := statuses.filterMap (fun p => if stagedCond p.2 then some (abs p.1) else none)
  let notStagedSet :=
    statuses.filterMap (fun p => if notStagedCond p.2 then some (abs p.1) else none)
  (staged, staged, notStagedSet)

/-- `buildOverlay` from validator.go.  `fetch` models
`git.GetStagedContent` for the fixed working directory: `none` is a
failed read (Go's non-nil `err`, upon which the loop `continue`s and the
file keeps its worktree content), `some` is the staged byte content.
Entries whose staging or worktree state is clean or untracked, and
non-`.go` paths, are skipped. -/
def buildOverlay (abs : String → String) (fetch : String → Option (List Nat))
    (statuses : List (String × FileStatus)) : List (String × List Nat) :=
  statuses.filterMap
    (fun p =>
      if p.2.Staging == ' ' || p.2.Staging == '?' || p.2.Worktree == ' ' then none
      else if !(strEndsWith (abs p.1) ".go") then none
      else
        match fetch p.1 with
        | none => none
        | some content => some (abs p.1, content))

/-- `ensureTrailingSlash` from validator.go. -/
def ensureTrailingSlash (dir : String) : String :=
  if dir.length > 0 && dir.back != '/' then dir ++ "/" else dir

/-- `isNotStaged` from validator.go: exact set membership, else a
directory-prefix fallback over every entry of the set. -/
def isNotStaged (file : String) (notStagedSet : List String) : Bool :=
  notStagedSet.contains file
    || notStagedSet.any (fun dir => strStartsWith file (ensureTrailingSlash dir))

/-- `newViolation` from validator.go, with `rel` standing for
`filepath.Rel(absWorkDir, ·)` (on error Go keeps the absolute path,
which is one more total function `rel`). -/
def newViolation (rel : String → String) (file symID depFile depID : String) : Violation :=
  { StagedFile := rel file, StagedSymbol := symID
    MissingFile := rel depFile, MissingSymbol := depID }

/-- The per-dependency check in the innermost loop of `findViolations`:
skip ids with no `Symbols` entry (external dependency); emit the
quadruple when the defining file is not staged yet not-staged. -/
def violationCheck (dg : DependencyGraph) (stagedSet notStagedSet : List String)
    (file symID depID : String) : Option (String × String × String × String) :=
  match lookupSym dg.Symbols depID with
  | none => none
  | some depSym =>
    if !stagedSet.contains depSym.File && isNotStaged depSym.File notStagedSet then
      some (file, symID, depSym.File, depID)
    else none

/-- The loop nest of `findViolations`, producing the quadruples
`(stagedFile, stagedSymbol, missingFile, missingSymbol)` in emission
order, before `newViolation` converts paths for display. -/
def violationTuples (dg : DependencyGraph) (stagedGo stagedSet notStagedSet : List String) :
    List (String × String × String × String) :=
  stagedGo.flatMap (fun file =>
    (lookupList dg.FileSyms file).flatMap (fun symID =>
      (dg.TransitiveDeps symID).filterMap (fun depID =>
        violationCheck dg stagedSet notStagedSet file symID depID)))

/-- `findViolations` from validator.go: the emitted `Violation`s are the
tuples of the loop nest rendered through `newViolation`. -/
def findViolations (rel : String → String) (dg : DependencyGraph)
    (stagedGo stagedSet notStagedSet : List String) : List Violation :=
  (violationTuples dg stagedGo stagedSet notStagedSet).map
    (fun t => newViolation rel t.1 t.2.1 t.2.2.1 t.2.2.2)

/-! ## internal/validator: committable set selection -/

/-- Lexicographic path comparison `a <= b`.  Go compares strings byte
by byte; on UTF-8 data that order coincides with the codepoint order of
the character lists, which is `String`'s order (`String.le_iff_toList_le`,
proven in `pathLe_iff`).  Defined on the character data directly so that
it evaluates inside the kernel. -/
def pathLe (a b : String) : Bool := decide (a.data ≤ b.data)

theorem pathLe_iff (a b : String) : pathLe a b = true ↔ a ≤ b := by
  rw [pathLe, decide_eq_true_eq, String.le_iff_toList_le]
  exact Iff.rfl

instance : IsTotal String (fun a b => pathLe a b = true) :=
  ⟨fun a b => by
    rcases le_total a b with h | h
    · exact Or.inl ((pathLe_iff a b).mpr h)
    · exact Or.inr ((pathLe_iff b a).mpr h)⟩

instance : IsTrans String (fun a b => pathLe a b = true) :=
  ⟨fun a b c h1 h2 =>
    (pathLe_iff a c).mpr (le_trans ((pathLe_iff a b).mp h1) ((pathLe_iff b c).mp h2))⟩

/-- `sortFilesCopy` from validator.go.  The Go exchange sort returns the
ascending lexicographic reordering of its input; insertion sort computes
the same list (two sorted lists that are permutations of the same input
are equal), so the model uses insertion sort. -/
def sortFilesCopy (files : List String) : List String :=
  files.insertionSort (fun a b => pathLe a b = true)

theorem sortFilesCopy_perm (files : List String) :
    List.Perm (sortFilesCopy files) files :=
  List.perm_insertionSort _ files

theorem sortFilesCopy_mem (files : List String) (x : String) :
    x ∈ sortFilesCopy files ↔ x ∈ files :=
  (sortFilesCopy_perm files).mem_iff

theorem sortFilesCopy_sorted (files : List String) :
    (sortFilesCopy files).Sorted (· ≤ ·) := by
  have h := List.sorted_insertionSort (fun a b => pathLe a b = true) files
  exact h.imp (fun hab => (pathLe_iff _ _).mp hab)

/-- `buildChangesetMap` from validator.go: the key set (modelled as a
list) of the files whose worktree state is modified or whose staging
state is the untracked marker. -/
def buildChangesetMap (abs : String → String) (statuses : List (String × FileStatus)) :
    List String :=
  statuses.filterMap (fun p => if notStagedCond p.2 then some (abs p.1) else none)

/-- `getCandidates` from validator.go: unstaged-modified or untracked
files, excluding staged ones. -/
def getCandidates (abs : String → String) (statuses : List (String × FileStatus)) :
    List String :=
  statuses.filterMap
    (fun p => if !stagedCond p.2 && notStagedCond p.2 then some (abs p.1) else none)

/-- `isIndependent` from validator.go: no symbol of `file` may have a
transitive dependency defined in another changeset file (graph-external
ids and self-references are skipped). -/
def isIndependent (dg : DependencyGraph) (file : String) (changesetFiles : List String) :
    Bool :=
  (lookupList dg.FileSyms file).all (fun symID =>
    (dg.TransitiveDeps symID).all (fun depID =>
      match lookupSym dg.Symbols depID with
      | none => true
      | some depSym => depSym.File == file || !changesetFiles.contains depSym.File))

/-- `canCommitWithBase` from validator.go: like `isIndependent` but
dependencies on `baseFile` are also allowed. -/
def canCommitWithBase (dg : DependencyGraph) (file baseFile : String)
    (changesetFiles : List String) : Bool :=
  (lookupList dg.FileSyms file).all (fun symID =>
    (dg.TransitiveDeps symID).all (fun depID =>
      match lookupSym dg.Symbols depID with
      | none => true
      | some depSym =>
        depSym.File == file || depSym.File == baseFile
          || !changesetFiles.contains depSym.File))

/-- The body of `collectSymbolDependants`'s loop, as a partial map: the
dependant file contributed by one reverse-edge source, if any (skip
unknown symbols, the base file itself, and non-changeset files). -/
def dependantFileOf (dg : DependencyGraph) (baseFile : String)
    (changesetFiles : List String) (depSymID : String) : Option String :=
  match lookupSym dg.Symbols depSymID with
  | none => none
  | some depSym =>
    if depSym.File == baseFile then none
    else if changesetFiles.contains depSym.File then some depSym.File
    else none

/-- Go set-map insertion `dependantFiles[f] = true`, modelled on the key
list: append the key if it is not already present. -/
def insertUnique (l : List String) (x : String) : List String :=
  if l.contains x then l else l ++ [x]

/-- `collectSymbolDependants` from validator.go: fold the reverse edges
of one base symbol into the accumulated dependant-file set. -/
def collectSymbolDependants (dg : DependencyGraph) (baseSymID baseFile : String)
    (changesetFiles : List String) (dependantFiles : List String) : List String :=
  (lookupList dg.InEdges baseSymID).foldl
    (fun acc depSymID =>
      match dependantFileOf dg baseFile changesetFiles depSymID with
      | none => acc
      | some f => insertUnique acc f)
    dependantFiles

/-- `collectDependantFiles` from validator.go: run
`collectSymbolDependants` for every symbol the base file defines. -/
def collectDependantFiles (dg : DependencyGraph) (baseFile : String)
    (changesetFiles : List String) : List String :=
  (lookupList dg.FileSyms baseFile).foldl
    (fun acc baseSymID => collectSymbolDependants dg baseSymID baseFile changesetFiles acc)
    []

/-- `filterCommittableWithBase` from validator.go. -/
def filterCommittableWithBase (dg : DependencyGraph) (dependantFiles : List String)
    (baseFile : String) (changesetFiles : List String) : List String :=
  dependantFiles.filter (fun file => canCommitWithBase dg file baseFile changesetFiles)

/-- `findDirectDependants` from validator.go. -/
def findDirectDependants (dg : DependencyGraph) (baseFile : String)
    (changesetFiles : List String) : List String :=
  sortFilesCopy
    (filterCommittableWithBase dg (collectDependantFiles dg baseFile changesetFiles)
      baseFile changesetFiles)

/-- `buildCommittableSet` from validator.go: the base file, followed by
its direct dependants when requested. -/
def buildCommittableSet (dg : DependencyGraph) (baseFile : String)
    (changesetFiles : List String) (includeDependants : Bool) : List String :=
  if includeDependants then baseFile :: findDirectDependants dg baseFile changesetFiles
  else [baseFile]

/-- `convertToRelativePaths` from validator.go (`rel` models
`filepath.Rel(absWorkDir, ·)`, total as explained above). -/
def convertToRelativePaths (rel : String → String) (absPaths : List String) : List String :=
  absPaths.map rel

/-- `findCommittableSet` from validator.go: sort the candidates, build
the changeset map, pick the first independent candidate and build its
committable set; `[]` (Go `nil`) when no candidate is independent. -/
def findCommittableSet (rel abs : String → String) (dg : DependencyGraph)
    (candidates : List String) (statuses : List (String × FileStatus))
    (includeDependants : Bool) : List String :=
  let sortedCandidates := sortFilesCopy candidates
  let changesetFiles := buildChangesetMap abs statuses
  match sortedCandidates.find? (fun file => isIndependent dg file changesetFiles) with
  | some file =>
    convertToRelativePaths rel (buildCommittableSet dg file changesetFiles includeDependants)
  | none => []

/-! ## Characterisation lemmas -/

theorem violationCheck_eq_some_iff (dg : DependencyGraph)
    (stagedSet notStagedSet : List String) (file symID depID : String)
    (t : String × String × String × String) :
    violationCheck dg stagedSet notStagedSet file symID depID = some t
      ↔ ∃ depSym, lookupSym dg.Symbols depID = some depSym
          ∧ stagedSet.contains depSym.File = false
          ∧ isNotStaged depSym.File notStagedSet = true
          ∧ t = (file, symID, depSym.File, depID) := by
  unfold violationCheck
  cases h : lookupSym dg.Symbols depID with
  | none => simp [h]
  | some depSym =>
    simp only [h]
    by_cases hcond :
        (!stagedSet.contains depSym.File && isNotStaged depSym.File notStagedSet) = true
    · rw [if_pos hcond]
      have hsplit := hcond
      simp only [Bool.and_eq_true, Bool.not_eq_true'] at hsplit
      constructor
      · intro ht
        exact ⟨depSym, rfl, hsplit.1, hsplit.2, (Option.some_inj.mp ht).symm⟩
      · rintro ⟨depSym', hEq, h1, h2, ht⟩
        cases Option.some_inj.mp hEq
        subst ht
        rfl
    · rw [if_neg hcond]
      constructor
      · intro ht; exact absurd ht (by simp)
      · rintro ⟨depSym', hEq, h1, h2, ht⟩
        cases Option.some_inj.mp hEq
        exact absurd (show (!stagedSet.contains depSym.File
          && isNotStaged depSym.File notStagedSet) = true by rw [h1, h2]; rfl) hcond

theorem mem_violationTuples_iff (dg : DependencyGraph)
    (stagedGo stagedSet notStagedSet : List String)
    (file symID depFile depID : String) :
    (file, symID, depFile, depID) ∈ violationTuples dg stagedGo stagedSet notStagedSet
      ↔ file ∈ stagedGo ∧ symID ∈ lookupList dg.FileSyms file
          ∧ depID ∈ dg.TransitiveDeps symID
          ∧ ∃ depSym, lookupSym dg.Symbols depID = some depSym ∧ depSym.File = depFile
              ∧ stagedSet.contains depFile = false
              ∧ isNotStaged depFile notStagedSet = true := by
  unfold violationTuples
  simp only [List.mem_flatMap, List.mem_filterMap]
  constructor
  · rintro ⟨f, hf, s, hs, d, hd, hcheck⟩
    rcases (violationCheck_eq_some_iff dg stagedSet notStagedSet f s d _).mp hcheck
      with ⟨depSym, hsym, h1, h2, ht⟩
    simp only [Prod.mk.injEq] at ht
    obtain ⟨hfe, hse, hdf, hde⟩ := ht
    subst hfe; subst hse; subst hde; subst hdf
    exact ⟨hf, hs, hd, depSym, hsym, rfl, h1, h2⟩
  · rintro ⟨hf, hs, hd, depSym, hsym, hdf, h1, h2⟩
    refine ⟨file, hf, symID, hs, depID, hd, ?_⟩
    rw [violationCheck_eq_some_iff]
    exact ⟨depSym, hsym, hdf ▸ h1, hdf ▸ h2, by rw [hdf]⟩

theorem isNotStaged_iff (file : String) (notStagedSet : List String) :
    isNotStaged file notStagedSet = true
      ↔ file ∈ notStagedSet
        ∨ ∃ dir ∈ notStagedSet, strStartsWith file (ensureTrailingSlash dir) = true := by
  unfold isNotStaged
  simp [List.any_eq_true]

theorem isIndependent_iff (dg : DependencyGraph) (file : String)
    (changesetFiles : List String) :
    isIndependent dg file changesetFiles = true
      ↔ ∀ symID ∈ lookupList dg.FileSyms file, ∀ depID ∈ dg.TransitiveDeps symID,
          ∀ depSym, lookupSym dg.Symbols depID = some depSym →
            depSym.File = file ∨ changesetFiles.contains depSym.File = false := by
  unfold isIndependent
  simp only [List.all_eq_true]
  constructor
  · intro h symID hsym depID hdep depSym hlook
    have := h symID hsym depID hdep
    rw [hlook] at this
    simpa [Bool.or_eq_true, Bool.not_eq_true'] using this
  · intro h symID hsym depID hdep
    cases hlook : lookupSym dg.Symbols depID with
    | none => simp
    | some depSym =>
      have := h symID hsym depID hdep depSym hlook
      simpa [Bool.or_eq_true, Bool.not_eq_true'] using this

theorem canCommitWithBase_iff (dg : DependencyGraph) (file baseFile : String)
    (changesetFiles : List String) :
    canCommitWithBase dg file baseFile changesetFiles = true
      ↔ ∀ symID ∈ lookupList dg.FileSyms file, ∀ depID ∈ dg.TransitiveDeps symID,
          ∀ depSym, lookupSym dg.Symbols depID = some depSym →
            depSym.File = file ∨ depSym.File = baseFile
              ∨ changesetFiles.contains depSym.File = false := by
  unfold canCommitWithBase
  simp only [List.all_eq_true]
  constructor
  · intro h symID hsym depID hdep depSym hlook
    have hthis := h symID hsym depID hdep
    rw [hlook] at hthis
    simp only [beq_iff_eq, Bool.or_eq_true, Bool.not_eq_true'] at hthis
    rcases hthis with (h' | h') | h'
    · exact Or.inl h'
    · exact Or.inr (Or.inl h')
    · exact Or.inr (Or.inr (by simpa using h'))
  · intro h symID hsym depID hdep
    cases hlook : lookupSym dg.Symbols depID with
    | none => simp
    | some depSym =>
      rcases h symID hsym depID hdep depSym hlook with h' | h' | h'
      · simp [h']
      · simp [h']
      · simp only [beq_iff_eq, Bool.or_eq_true, Bool.not_eq_true']
        exact Or.inr (by simpa using h')

theorem find?_sorted_eq_some (p : String → Bool) :
    ∀ (l : List String), l.Sorted (· ≤ ·) → ∀ base, base ∈ l → p base = true →
      (∀ x ∈ l, p x = true → base ≤ x) → l.find? p = some base := by
  intro l
  induction l with
  | nil => intro _ base h; simp at h
  | cons y ys ih =>
    intro hsorted base hmem hp hmin
    rcases List.sorted_cons.mp hsorted with ⟨hy_le, hys⟩
    by_cases hy : p y = true
    · have h1 : base ≤ y := hmin y (List.mem_cons_self y ys) hy
      have h2 : y ≤ base := by
        rcases List.mem_cons.mp hmem with hEq | hR
        · exact hEq ▸ le_refl y
        · exact hy_le base hR
      have : base = y := le_antisymm h1 h2
      subst this
      exact List.find?_cons_of_pos _ hp
    · have hne : base ≠ y := fun hEq => hy (hEq ▸ hp)
      have hbys : base ∈ ys := by
        rcases List.mem_cons.mp hmem with hEq | hR
        · exact absurd hEq hne
        · exact hR
      rw [List.find?_cons_of_neg _ (by simpa using hy)]
      exact ih hys base hbys hp (fun x hx hpx => hmin x (by simp [hx]) hpx)

theorem mem_insertUnique (l : List String) (x y : String) :
    y ∈ insertUnique l x ↔ y ∈ l ∨ y = x := by
  unfold insertUnique
  by_cases h : x ∈ l
  · rw [if_pos (by simpa using h)]
    constructor
    · exact Or.inl
    · rintro (hy | rfl)
      · exact hy
      · exact h
  · rw [if_neg (by simpa using h)]
    simp

theorem dependantFileOf_eq_some_iff (dg : DependencyGraph) (baseFile : String)
    (changesetFiles : List String) (depSymID x : String) :
    dependantFileOf dg baseFile changesetFiles depSymID = some x
      ↔ ∃ s, lookupSym dg.Symbols depSymID = some s ∧ s.File = x
          ∧ x ≠ baseFile ∧ changesetFiles.contains x = true := by
  unfold dependantFileOf
  cases h : lookupSym dg.Symbols depSymID with
  | none => simp
  | some s =>
    dsimp only
    by_cases hb : s.File = baseFile
    · rw [if_pos (by simpa using hb)]
      constructor
      · intro hx; exact absurd hx (by simp)
      · rintro ⟨s', hs', hfile, hne, _⟩
        cases Option.some_inj.mp hs'
        exact absurd (hfile ▸ hb) hne
    · rw [if_neg (by simpa using hb)]
      by_cases hc : changesetFiles.contains s.File = true
      · rw [if_pos hc]
        constructor
        · intro hx
          cases Option.some_inj.mp hx
          exact ⟨s, rfl, rfl, hb, hc⟩
        · rintro ⟨s', hs', hfile, _, _⟩
          cases Option.some_inj.mp hs'
          rw [hfile]
      · rw [if_neg hc]
        constructor
        · intro hx; exact absurd hx (by simp)
        · rintro ⟨s', hs', hfile, _, hc'⟩
          cases Option.some_inj.mp hs'
          exact absurd (hfile ▸ hc') hc

theorem mem_foldl_dependant (dg : DependencyGraph) (baseFile : String)
    (changesetFiles : List String) :
    ∀ (l : List String) (acc : List String) (x : String),
      x ∈ l.foldl
          (fun acc depSymID =>
            match dependantFileOf dg baseFile changesetFiles depSymID with
            | none => acc
            | some f => insertUnique acc f)
          acc
        ↔ x ∈ acc ∨ ∃ d ∈ l, dependantFileOf dg baseFile changesetFiles d = some x := by
  intro l
  induction l with
  | nil => intro acc x; simp
  | cons d t ih =>
    intro acc x
    simp only [List.foldl_cons]
    cases hd : dependantFileOf dg baseFile changesetFiles d with
    | none =>
      rw [ih]
      constructor
      · rintro (hacc | ⟨d', hd', hx⟩)
        · exact Or.inl hacc
        · exact Or.inr ⟨d', List.mem_cons.mpr (Or.inr hd'), hx⟩
      · rintro (hacc | ⟨d', hd', hx⟩)
        · exact Or.inl hacc
        · rcases List.mem_cons.mp hd' with rfl | hmem
          · rw [hd] at hx; exact absurd hx (by simp)
          · exact Or.inr ⟨d', hmem, hx⟩
    | some f =>
      rw [ih]
      constructor
      · rintro (hacc | ⟨d', hd', hx⟩)
        · rcases (mem_insertUnique acc f x).mp hacc with hacc' | rfl
          · exact Or.inl hacc'
          · exact Or.inr ⟨d, List.mem_cons_self d t, hd⟩
        · exact Or.inr ⟨d', List.mem_cons.mpr (Or.inr hd'), hx⟩
      · rintro (hacc | ⟨d', hd', hx⟩)
        · exact Or.inl ((mem_insertUnique acc f x).mpr (Or.inl hacc))
        · rcases List.mem_cons.mp hd' with rfl | hmem
          · rw [hd] at hx
            exact Or.inl ((mem_insertUnique acc f x).mpr (Or.inr (Option.some_inj.mp hx).symm))
          · exact Or.inr ⟨d', hmem, hx⟩

theorem mem_collectSymbolDependants (dg : DependencyGraph) (baseSymID baseFile : String)
    (changesetFiles acc : List String) (x : String) :
    x ∈ collectSymbolDependants dg baseSymID baseFile changesetFiles acc
      ↔ x ∈ acc ∨ ∃ d ∈ lookupList dg.InEdges baseSymID,
          dependantFileOf dg baseFile changesetFiles d = some x := by
  unfold collectSymbolDependants
  exact mem_foldl_dependant dg baseFile changesetFiles _ acc x

theorem mem_foldl_collect (dg : DependencyGraph) (baseFile : String)
    (changesetFiles : List String) :
    ∀ (l : List String) (acc : List String) (x : String),
      x ∈ l.foldl
          (fun acc baseSymID =>
            collectSymbolDependants dg baseSymID baseFile changesetFiles acc)
          acc
        ↔ x ∈ acc ∨ ∃ b ∈ l, ∃ d ∈ lookupList dg.InEdges b,
            dependantFileOf dg baseFile changesetFiles d = some x := by
  intro l
  induction l with
  | nil => intro acc x; simp
  | cons b t ih =>
    intro acc x
    simp only [List.foldl_cons]
    rw [ih]
    constructor
    · rintro (hacc | ⟨b', hb', hx⟩)
      · rcases (mem_collectSymbolDependants dg b baseFile changesetFiles acc x).mp hacc
          with hacc' | ⟨d, hd, hx⟩
        · exact Or.inl hacc'
        · exact Or.inr ⟨b, List.mem_cons_self b t, d, hd, hx⟩
      · exact Or.inr ⟨b', List.mem_cons.mpr (Or.inr hb'), hx⟩
    · rintro (hacc | ⟨b', hb', d, hd, hx⟩)
      · exact Or.inl ((mem_collectSymbolDependants dg b baseFile changesetFiles acc x).mpr
          (Or.inl hacc))
      · rcases List.mem_cons.mp hb' with rfl | hmem
        · exact Or.inl ((mem_collectSymbolDependants dg b' baseFile changesetFiles acc x).mpr
            (Or.inr ⟨d, hd, hx⟩))
        · exact Or.inr ⟨b', hmem, d, hd, hx⟩

theorem mem_collectDependantFiles (dg : DependencyGraph) (baseFile : String)
    (changesetFiles : List String) (x : String) :
    x ∈ collectDependantFiles dg baseFile changesetFiles
      ↔ ∃ b ∈ lookupList dg.FileSyms baseFile, ∃ d ∈ lookupList dg.InEdges b,
          dependantFileOf dg baseFile changesetFiles d = some x := by
  unfold collectDependantFiles
  rw [mem_foldl_collect]
  simp

theorem mem_findDirectDependants_iff (dg : DependencyGraph) (baseFile : String)
    (changesetFiles : List String) (F : String) :
    F ∈ findDirectDependants dg baseFile changesetFiles
      ↔ (F ≠ baseFile ∧ changesetFiles.contains F = true
          ∧ ∃ b ∈ lookupList dg.FileSyms baseFile, ∃ d ∈ lookupList dg.InEdges b,
              ∃ s, lookupSym dg.Symbols d = some s ∧ s.File = F)
        ∧ canCommitWithBase dg F baseFile changesetFiles = true := by
  unfold findDirectDependants filterCommittableWithBase
  rw [sortFilesCopy_mem, List.mem_filter, mem_collectDependantFiles]
  constructor
  · rintro ⟨⟨b, hb, d, hd, hfile⟩, hcan⟩
    rcases (dependantFileOf_eq_some_iff dg baseFile changesetFiles d F).mp hfile
      with ⟨s, hs, hsf, hne, hc⟩
    exact ⟨⟨hne, hc, b, hb, d, hd, s, hs, hsf⟩, hcan⟩
  · rintro ⟨⟨hne, hc, b, hb, d, hd, s, hs, hsf⟩, hcan⟩
    refine ⟨⟨b, hb, d, hd, ?_⟩, hcan⟩
    exact (dependantFileOf_eq_some_iff dg baseFile changesetFiles d F).mpr
      ⟨s, hs, hsf, hne, hc⟩

theorem findDirectDependants_sorted (dg : DependencyGraph) (baseFile : String)
    (changesetFiles : List String) :
    (findDirectDependants dg baseFile changesetFiles).Sorted (· ≤ ·) :=
  sortFilesCopy_sorted _

/-- Membership in the filterMap pattern shared by `categorizeFiles`,
`getCandidates` and `buildChangesetMap`. -/
theorem mem_statusFilter_iff (abs : String → String) (cond : FileStatus → Bool)
    (statuses : List (String × FileStatus)) (x : String) :
    x ∈ statuses.filterMap (fun p => if cond p.2 then some (abs p.1) else none)
      ↔ ∃ p ∈ statuses, cond p.2 = true ∧ abs p.1 = x := by
  simp only [List.mem_filterMap]
  constructor
  · rintro ⟨p, hp, hx⟩
    by_cases hc : cond p.2 = true
    · rw [if_pos hc] at hx
      exact ⟨p, hp, hc, Option.some_inj.mp hx⟩
    · rw [if_neg hc] at hx
      exact absurd hx (by simp)
  · rintro ⟨p, hp, hc, hx⟩
    exact ⟨p, hp, by rw [if_pos hc, hx]⟩

theorem mem_buildOverlay_iff (abs : String → String) (fetch : String → Option (List Nat))
    (statuses : List (String × FileStatus)) (k : String) (c : List Nat) :
    (k, c) ∈ buildOverlay abs fetch statuses
      ↔ ∃ p ∈ statuses,
          (p.2.Staging == ' ' || p.2.Staging == '?' || p.2.Worktree == ' ') = false
          ∧ strEndsWith (abs p.1) ".go" = true
          ∧ fetch p.1 = some c ∧ abs p.1 = k := by
  unfold buildOverlay
  simp only [List.mem_filterMap]
  constructor
  · rintro ⟨p, hp, hx⟩
    by_cases h1 : (p.2.Staging == ' ' || p.2.Staging == '?' || p.2.Worktree == ' ') = true
    · rw [if_pos h1] at hx
      exact absurd hx (by simp)
    · rw [if_neg h1] at hx
      by_cases h2 : strEndsWith (abs p.1) ".go" = true
      · rw [if_neg (by simp [h2])] at hx
        cases hf : fetch p.1 with
        | none => rw [hf] at hx; exact absurd hx (by simp)
        | some content =>
          rw [hf] at hx
          have hpair : (abs p.1, content) = (k, c) := Option.some_inj.mp hx
          have hk : abs p.1 = k := congrArg Prod.fst hpair
          have hc : content = c := congrArg Prod.snd hpair
          exact ⟨p, hp, by simpa using h1, h2, by rw [hf, hc], hk⟩
      · rw [if_pos (by simpa using h2)] at hx
        exact absurd hx (by simp)
  · rintro ⟨p, hp, h1, h2, hf, hk⟩
    refine ⟨p, hp, ?_⟩
    rw [if_neg (by simp [h1]), if_neg (by simp [h2]), hf, hk]

theorem findCommittableSet_eq (rel abs : String → String) (dg : DependencyGraph)
    (candidates : List String) (statuses : List (String × FileStatus))
    (includeDependants : Bool) :
    findCommittableSet rel abs dg candidates statuses includeDependants =
      match (sortFilesCopy candidates).find?
          (fun file => isIndependent dg file (buildChangesetMap abs statuses)) with
      | some file =>
        convertToRelativePaths rel
          (buildCommittableSet dg file (buildChangesetMap abs statuses) includeDependants)
      | none => [] := rfl

theorem findCommittableSet_of_no_independent (rel abs : String → String)
    (dg : DependencyGraph) (candidates : List String)
    (statuses : List (String × FileStatus)) (includeDependants : Bool)
    (h : ∀ c ∈ candidates, isIndependent dg c (buildChangesetMap abs statuses) = false) :
    findCommittableSet rel abs dg candidates statuses includeDependants = [] := by
  rw [findCommittableSet_eq]
  have hfind : (sortFilesCopy candidates).find?
      (fun file => isIndependent dg file (buildChangesetMap abs statuses)) = none := by
    rw [List.find?_eq_none]
    intro x hx
    simp [h x ((sortFilesCopy_mem candidates x).mp hx)]
  rw [hfind]

theorem findCommittableSet_of_first_independent (rel abs : String → String)
    (dg : DependencyGraph) (candidates : List String)
    (statuses : List (String × FileStatus)) (includeDependants : Bool) (base : String)
    (hmem : base ∈ candidates)
    (hind : isIndependent dg base (buildChangesetMap abs statuses) = true)
    (hmin : ∀ c ∈ candidates, c < base →
      isIndependent dg c (buildChangesetMap abs statuses) = false) :
    findCommittableSet rel abs dg candidates statuses includeDependants
      = convertToRelativePaths rel
          (buildCommittableSet dg base (buildChangesetMap abs statuses) includeDependants) := by
  rw [findCommittableSet_eq]
  have hfind : (sortFilesCopy candidates).find?
      (fun file => isIndependent dg file (buildChangesetMap abs statuses)) = some base := by
    refine find?_sorted_eq_some _ _ (sortFilesCopy_sorted candidates) base
      ((sortFilesCopy_mem _ _).mpr hmem) hind ?_
    intro x hx hpx
    by_cases hlt : x < base
    · exact absurd hpx (by simp [hmin x ((sortFilesCopy_mem _ _).mp hx) hlt])
    · exact not_lt.mp hlt
  rw [hfind]

theorem buildCommittableSet_head (rel : String → String) (dg : DependencyGraph)
    (base : String) (changesetFiles : List String) (includeDependants : Bool) :
    (convertToRelativePaths rel
      (buildCommittableSet dg base changesetFiles includeDependants)).head?
      = some (rel base) := by
  unfold buildCommittableSet convertToRelativePaths
  cases includeDependants <;> simp

/-! ## Claim theorems -/

/-- C1: for every symbol defined in a staged file and every id in its
transitive closure whose defining symbol has a `Symbols` entry, the
violation detector emits the quadruple if and only if the dependency's
defining file is not in the staged set and is not-staged, where
not-staged membership holds by exact presence or by directory-prefix
match; ids with no graph entry are skipped (the characterisation below
requires a `Symbols` entry), and `findViolations` emits exactly these
tuples through `newViolation`. -/
theorem claim_C1_violation_emission (rel : String → String) (dg : DependencyGraph)
    (stagedGo stagedSet notStagedSet : List String)
    (file symID depFile depID : String) :
    ((file, symID, depFile, depID) ∈ violationTuples dg stagedGo stagedSet notStagedSet
      ↔ file ∈ stagedGo ∧ symID ∈ lookupList dg.FileSyms file
          ∧ depID ∈ dg.TransitiveDeps symID
          ∧ ∃ depSym, lookupSym dg.Symbols depID = some depSym ∧ depSym.File = depFile
              ∧ stagedSet.contains depFile = false
              ∧ isNotStaged depFile notStagedSet = true)
    ∧ (isNotStaged depFile notStagedSet = true
        ↔ depFile ∈ notStagedSet
          ∨ ∃ dir ∈ notStagedSet, strStartsWith depFile (ensureTrailingSlash dir) = true)
    ∧ findViolations rel dg stagedGo stagedSet notStagedSet
        = (violationTuples dg stagedGo stagedSet notStagedSet).map
            (fun t => newViolation rel t.1 t.2.1 t.2.2.1 t.2.2.2) :=
  ⟨mem_violationTuples_iff dg stagedGo stagedSet notStagedSet file symID depFile depID,
   isNotStaged_iff depFile notStagedSet, rfl⟩

/-- C3: `TransitiveDeps` is total by construction and, for every graph
(cyclic ones included), returns a duplicate-free list containing the
start id and exactly the forward-reachable ids; `TransitiveDependents`
satisfies the same contract over the reverse edges. -/
theorem claim_C3_transitive_closure_contract (g : DependencyGraph) (id : String) :
    (id ∈ g.TransitiveDeps id ∧ (g.TransitiveDeps id).Nodup
      ∧ ∀ y, y ∈ g.TransitiveDeps id ↔ Reaches g.OutEdges id y)
    ∧ (id ∈ g.TransitiveDependents id ∧ (g.TransitiveDependents id).Nodup
      ∧ ∀ y, y ∈ g.TransitiveDependents id ↔ Reaches g.InEdges id y) :=
  ⟨⟨self_mem_transitiveDeps g id, transitiveDeps_nodup g id,
    fun y => mem_transitiveDeps_iff g id y⟩,
   ⟨self_mem_transitiveDependents g id, transitiveDependents_nodup g id,
    fun y => mem_transitiveDependents_iff g id y⟩⟩

/-- C6: after `AddDependency a b`, `b` is in `TransitiveDeps a` and `a`
is in `TransitiveDependents b`. -/
theorem claim_C6_edge_in_closures (g : DependencyGraph) (a b : String) :
    b ∈ (g.AddDependency a b).TransitiveDeps a
      ∧ a ∈ (g.AddDependency a b).TransitiveDependents b :=
  ⟨(mem_transitiveDeps_iff (g.AddDependency a b) a b).mpr
      (Relation.ReflTransGen.single (mem_lookupList_addEdge g.OutEdges a b)),
   (mem_transitiveDependents_iff (g.AddDependency a b) b a).mpr
      (Relation.ReflTransGen.single (mem_lookupList_addEdge g.InEdges b a))⟩

/-- C2: `findCommittableSet` scans the candidates in lexicographic order
and returns as base the first independent one — independence meaning
that every transitively-reachable dependency of every symbol the
candidate defines has no graph entry, lives in the candidate's own file,
or lives outside the changeset membership set — and returns the empty
list when no candidate is independent. -/
theorem claim_C2_committable_first_independent (rel abs : String → String)
    (dg : DependencyGraph) (candidates : List String)
    (statuses : List (String × FileStatus)) (includeDependants : Bool) :
    (∀ f, isIndependent dg f (buildChangesetMap abs statuses) = true
      ↔ ∀ symID ∈ lookupList dg.FileSyms f, ∀ depID ∈ dg.TransitiveDeps symID,
          ∀ depSym, lookupSym dg.Symbols depID = some depSym →
            depSym.File = f ∨ (buildChangesetMap abs statuses).contains depSym.File = false)
    ∧ ((∀ c ∈ candidates, isIndependent dg c (buildChangesetMap abs statuses) = false) →
        findCommittableSet rel abs dg candidates statuses includeDependants = [])
    ∧ (∀ base ∈ candidates,
        isIndependent dg base (buildChangesetMap abs statuses) = true →
        (∀ c ∈ candidates, c < base →
          isIndependent dg c (buildChangesetMap abs statuses) = false) →
        findCommittableSet rel abs dg candidates statuses includeDependants
            = convertToRelativePaths rel
                (buildCommittableSet dg base (buildChangesetMap abs statuses)
                  includeDependants)
          ∧ (findCommittableSet rel abs dg candidates statuses includeDependants).head?
              = some (rel base)) := by
  refine ⟨fun f => isIndependent_iff dg f _,
    findCommittableSet_of_no_independent rel abs dg candidates statuses includeDependants,
    ?_⟩
  intro base hmem hind hmin
  have heq := findCommittableSet_of_first_independent rel abs dg candidates statuses
    includeDependants base hmem hind hmin
  exact ⟨heq, by rw [heq]; exact buildCommittableSet_head rel dg base _ includeDependants⟩

/-- Witness for C2 on a concrete two-candidate changeset: with the empty
graph both candidates are independent, and the lexicographically first
one, `a.go`, is returned as base. -/
theorem claim_C2_witness :
    (findCommittableSet id id NewDependencyGraph ["b.go", "a.go"] [] false).head?
      = some "a.go" := by
  have h := (claim_C2_committable_first_independent id id NewDependencyGraph
    ["b.go", "a.go"] [] false).2.2 "a.go" (by decide) (by decide) ?_
  · exact h.2
  · intro c hc hlt
    exfalso
    have hc' : c = "b.go" ∨ c = "a.go" := by simpa using hc
    rcases hc' with rfl | rfl
    · rw [String.lt_iff_toList_lt] at hlt
      exact absurd hlt (by decide)
    · rw [String.lt_iff_toList_lt] at hlt
      exact absurd hlt (by decide)

theorem stagedCond_iff (st : FileStatus) :
    stagedCond st = true ↔ st.Staging ≠ ' ' ∧ st.Staging ≠ '?' := by
  unfold stagedCond
  simp [bne]

theorem notStagedCond_iff (st : FileStatus) :
    notStagedCond st = true ↔ st.Worktree ≠ ' ' ∨ st.Staging = '?' := by
  unfold notStagedCond
  simp [bne]

theorem candidateCond_iff (st : FileStatus) :
    (!stagedCond st && notStagedCond st) = true
      ↔ ¬(st.Staging ≠ ' ' ∧ st.Staging ≠ '?')
        ∧ (st.Worktree ≠ ' ' ∨ st.Staging = '?') := by
  rw [Bool.and_eq_true, Bool.not_eq_true', ← Bool.not_eq_true (stagedCond st)]
  rw [notStagedCond_iff]
  constructor
  · rintro ⟨h1, h2⟩
    exact ⟨fun hc => h1 ((stagedCond_iff st).mpr hc), h2⟩
  · rintro ⟨h1, h2⟩
    exact ⟨fun hc => h1 ((stagedCond_iff st).mp hc), h2⟩

/-- C7: a partially-staged ("MM") file — index state indicating a change
and worktree state modified — is excluded from the committable candidate
set yet included in the changeset membership set; the first two
conjuncts characterise the two sets, the third applies them to an MM
entry (the exclusion additionally assumes that no other status entry
aliases to the same absolute path, which holds for a Go status map whose
keys are distinct relative paths). -/
theorem claim_C7_mm_candidacy_vs_changeset (abs : String → String)
    (statuses : List (String × FileStatus)) :
    (∀ x, x ∈ getCandidates abs statuses
      ↔ ∃ p ∈ statuses,
          (¬(p.2.Staging ≠ ' ' ∧ p.2.Staging ≠ '?')
            ∧ (p.2.Worktree ≠ ' ' ∨ p.2.Staging = '?')) ∧ abs p.1 = x)
    ∧ (∀ x, x ∈ buildChangesetMap abs statuses
      ↔ ∃ p ∈ statuses, (p.2.Worktree ≠ ' ' ∨ p.2.Staging = '?') ∧ abs p.1 = x)
    ∧ (∀ f st, (f, st) ∈ statuses →
        st.Staging ≠ ' ' → st.Staging ≠ '?' → st.Worktree ≠ ' ' →
        abs f ∈ buildChangesetMap abs statuses
        ∧ ((∀ p ∈ statuses, abs p.1 = abs f → p.2.Staging ≠ ' ' ∧ p.2.Staging ≠ '?') →
            abs f ∉ getCandidates abs statuses)) := by
  have hcand : ∀ x, x ∈ getCandidates abs statuses
      ↔ ∃ p ∈ statuses,
          (¬(p.2.Staging ≠ ' ' ∧ p.2.Staging ≠ '?')
            ∧ (p.2.Worktree ≠ ' ' ∨ p.2.Staging = '?')) ∧ abs p.1 = x := by
    intro x
    unfold getCandidates
    rw [mem_statusFilter_iff abs (fun st => !stagedCond st && notStagedCond st) statuses x]
    constructor
    · rintro ⟨p, hp, hc, hx⟩
      exact ⟨p, hp, (candidateCond_iff p.2).mp hc, hx⟩
    · rintro ⟨p, hp, hc, hx⟩
      exact ⟨p, hp, (candidateCond_iff p.2).mpr hc, hx⟩
  have hchg : ∀ x, x ∈ buildChangesetMap abs statuses
      ↔ ∃ p ∈ statuses, (p.2.Worktree ≠ ' ' ∨ p.2.Staging = '?') ∧ abs p.1 = x := by
    intro x
    unfold buildChangesetMap
    rw [mem_statusFilter_iff abs notStagedCond statuses x]
    constructor
    · rintro ⟨p, hp, hc, hx⟩
      exact ⟨p, hp, (notStagedCond_iff p.2).mp hc, hx⟩
    · rintro ⟨p, hp, hc, hx⟩
      exact ⟨p, hp, (notStagedCond_iff p.2).mpr hc, hx⟩
  refine ⟨hcand, hchg, ?_⟩
  intro f st hmem h1 h2 h3
  constructor
  · exact (hchg (abs f)).mpr ⟨(f, st), hmem, Or.inl h3, rfl⟩
  · intro hall hin
    rcases (hcand (abs f)).mp hin with ⟨p, hp, ⟨hns, _⟩, hx⟩
    exact hns (hall p hp hx)

/-- Witness for C7 at a concrete "MM" file. -/
theorem claim_C7_witness :
    "x.go" ∈ buildChangesetMap id [("x.go", ⟨'M', 'M'⟩)]
      ∧ "x.go" ∉ getCandidates id [("x.go", ⟨'M', 'M'⟩)] := by
  have h := (claim_C7_mm_candidacy_vs_changeset id [("x.go", ⟨'M', 'M'⟩)]).2.2
    "x.go" ⟨'M', 'M'⟩ (by decide) (by decide) (by decide) (by decide)
  exact ⟨h.1, h.2 (by decide)⟩

/-- C9: overlay construction is per-file: an entry exists exactly for
partially-staged `.go` status entries whose index-content read succeeds
(first conjunct, so a failing file contributes no entry and the analysis
goes on); an entry under the failing file's key can only come from a
different status entry aliasing to the same absolute path (second
conjunct); and changing the read outcome of one file leaves every entry
under any other key untouched (third conjunct). -/
theorem claim_C9_overlay_failure_is_local (abs : String → String)
    (fetch : String → Option (List Nat)) (statuses : List (String × FileStatus)) :
    (∀ k c, (k, c) ∈ buildOverlay abs fetch statuses
      ↔ ∃ p ∈ statuses,
          (p.2.Staging == ' ' || p.2.Staging == '?' || p.2.Worktree == ' ') = false
          ∧ strEndsWith (abs p.1) ".go" = true ∧ fetch p.1 = some c ∧ abs p.1 = k)
    ∧ (∀ f, fetch f = none → ∀ c, (abs f, c) ∈ buildOverlay abs fetch statuses →
        ∃ p ∈ statuses, p.1 ≠ f ∧ abs p.1 = abs f)
    ∧ (∀ (fetch' : String → Option (List Nat)) (f : String),
        (∀ x, x ≠ f → fetch x = fetch' x) →
        ∀ k c, k ≠ abs f →
          ((k, c) ∈ buildOverlay abs fetch statuses
            ↔ (k, c) ∈ buildOverlay abs fetch' statuses)) := by
  refine ⟨fun k c => mem_buildOverlay_iff abs fetch statuses k c, ?_, ?_⟩
  · intro f hf c hin
    rcases (mem_buildOverlay_iff abs fetch statuses (abs f) c).mp hin
      with ⟨p, hp, _, _, hfetch, hk⟩
    refine ⟨p, hp, ?_, hk⟩
    intro hEq
    rw [hEq, hf] at hfetch
    exact absurd hfetch (by simp)
  · intro fetch' f hagree k c hk
    rw [mem_buildOverlay_iff, mem_buildOverlay_iff]
    constructor
    · rintro ⟨p, hp, h1, h2, hfetch, hkey⟩
      have hne : p.1 ≠ f := fun hEq => hk (by rw [← hkey, hEq])
      exact ⟨p, hp, h1, h2, (hagree p.1 hne) ▸ hfetch, hkey⟩
    · rintro ⟨p, hp, h1, h2, hfetch, hkey⟩
      have hne : p.1 ≠ f := fun hEq => hk (by rw [← hkey, hEq])
      exact ⟨p, hp, h1, h2, (hagree p.1 hne).symm ▸ hfetch, hkey⟩

/-- Concrete inputs for the C9 witness: `a.go`'s staged-content read
fails under `fetchW`, succeeds under `fetchW'`; `b.go` reads the same
bytes under both. -/
def fetchW : String → Option (List Nat) :=
  fun x => if x = "b.go" then some [7] else none

def fetchW' : String → Option (List Nat) :=
  fun x => if x = "b.go" then some [7] else if x = "a.go" then some [9] else none

def statusesW9 : List (String × FileStatus) :=
  [("a.go", ⟨'M', 'M'⟩), ("b.go", ⟨'M', 'M'⟩)]

/-- Witness for C9: whether `a.go`'s read fails or succeeds, `b.go`'s
overlay entry is unaffected. -/
theorem claim_C9_witness :
    (("b.go", [7]) ∈ buildOverlay id fetchW statusesW9
      ↔ ("b.go", [7]) ∈ buildOverlay id fetchW' statusesW9) := by
  refine (claim_C9_overlay_failure_is_local id fetchW statusesW9).2.2 fetchW' "a.go"
    ?_ "b.go" [7] (by decide)
  intro x hx
  by_cases hb : x = "b.go"
  · simp [fetchW, fetchW', hb]
  · simp [fetchW, fetchW', hb, hx]

/-- C10: through the `categorizeFiles` pipeline, every emitted violation
tuple has a missing file outside the staged set while its staged file is
inside it, so the two are distinct: no file is reported simultaneously
as staged and as missing. -/
theorem claim_C10_missing_file_never_staged (abs : String → String)
    (statuses : List (String × FileStatus)) (dg : DependencyGraph)
    (file symID depFile depID : String) :
    (file, symID, depFile, depID)
        ∈ violationTuples dg (FilterGoFiles (categorizeFiles abs statuses).1)
            (categorizeFiles abs statuses).2.1 (categorizeFiles abs statuses).2.2 →
      (categorizeFiles abs statuses).2.1.contains depFile = false
      ∧ (categorizeFiles abs statuses).2.1.contains file = true
      ∧ depFile ≠ file := by
  intro h
  rcases (mem_violationTuples_iff dg (FilterGoFiles (categorizeFiles abs statuses).1)
    (categorizeFiles abs statuses).2.1 (categorizeFiles abs statuses).2.2
    file symID depFile depID).mp h with ⟨hf, _, _, _, _, _, h1, _⟩
  have hstaged : file ∈ (categorizeFiles abs statuses).2.1 := by
    have hfl : file ∈ (categorizeFiles abs statuses).1
        ∧ strEndsWith file ".go" = true := by
      simpa [FilterGoFiles] using hf
    exact hfl.1
  refine ⟨h1, by simpa using hstaged, ?_⟩
  intro hEq
  rw [hEq] at h1
  have : file ∉ (categorizeFiles abs statuses).2.1 := by simpa using h1
  exact this hstaged

/-- Concrete graph for the C10 witness: staged `a.go` defines `p.A`,
which depends on `p.B` defined in unstaged `b.go`. -/
def dgW10 : DependencyGraph :=
  { Symbols := [("p.A", ⟨"p.A", "A", "p", "func", "a.go"⟩),
                ("p.B", ⟨"p.B", "B", "p", "func", "b.go"⟩)]
    FileSyms := [("a.go", ["p.A"]), ("b.go", ["p.B"])]
    OutEdges := [("p.A", ["p.B"])]
    InEdges := [("p.B", ["p.A"])] }

def statusesW10 : List (String × FileStatus) :=
  [("a.go", ⟨'M', ' '⟩), ("b.go", ⟨' ', 'M'⟩)]

/-- Witness for C10 at the concrete violation `(a.go, p.A, b.go, p.B)`. -/
theorem claim_C10_witness :
    (categorizeFiles id statusesW10).2.1.contains "b.go" = false
    ∧ (categorizeFiles id statusesW10).2.1.contains "a.go" = true
    ∧ "b.go" ≠ "a.go" :=
  claim_C10_missing_file_never_staged id statusesW10 dgW10 "a.go" "p.A" "b.go" "p.B"
    (by decide)

theorem mem_keys_insertSymbol (tbl : List (String × Symbol)) (id : String) (s : Symbol)
    (x : String) :
    x ∈ (insertSymbol tbl id s).map Prod.fst → x ∈ tbl.map Prod.fst ∨ x = id := by
  induction tbl with
  | nil =>
    intro hx
    simp [insertSymbol] at hx
    exact Or.inr hx
  | cons p rest ih =>
    rcases p with ⟨k, v⟩
    intro hx
    by_cases hk : k = id
    · rw [insertSymbol, if_pos hk] at hx
      simp only [List.map_cons, List.mem_cons] at hx ⊢
      exact Or.inl hx
    · rw [insertSymbol, if_neg hk] at hx
      simp only [List.map_cons, List.mem_cons] at hx ⊢
      rcases hx with rfl | hx
      · exact Or.inl (Or.inl rfl)
      · rcases ih hx with h | h
        · exact Or.inl (Or.inr h)
        · exact Or.inr h

theorem insertSymbol_keys_nodup (tbl : List (String × Symbol)) (id : String) (s : Symbol) :
    (tbl.map Prod.fst).Nodup → ((insertSymbol tbl id s).map Prod.fst).Nodup := by
  induction tbl with
  | nil => intro _; simp [insertSymbol]
  | cons p rest ih =>
    rcases p with ⟨k, v⟩
    intro hnd
    simp only [List.map_cons, List.nodup_cons] at hnd
    by_cases hk : k = id
    · rw [insertSymbol, if_pos hk]
      simp only [List.map_cons, List.nodup_cons]
      exact hnd
    · rw [insertSymbol, if_neg hk]
      simp only [List.map_cons, List.nodup_cons]
      refine ⟨?_, ih hnd.2⟩
      intro hkin
      rcases mem_keys_insertSymbol rest id s k hkin with h | h
      · exact hnd.1 h
      · exact hk h

/-- One step of `registerDefinitions`'s fold. -/
def registerStep (g : DependencyGraph) (obj : TypesObject) : DependencyGraph :=
  match obj.pkgPath with
  | none => g
  | some p =>
    if obj.inPkgScope then
      let sym : Symbol :=
        { ID := symbolID obj, Name := obj.name, Package := p
          Kind := obj.kind, File := obj.file }
      { g with Symbols := insertSymbol g.Symbols sym.ID sym
               FileSyms := appendFileSym g.FileSyms sym.File sym.ID }
    else g

theorem registerDefinitions_cons (g : DependencyGraph) (obj : TypesObject)
    (t : List TypesObject) :
    registerDefinitions g (obj :: t) = registerDefinitions (registerStep g obj) t := rfl

theorem registerStep_keys_nodup (g : DependencyGraph) (obj : TypesObject)
    (h : (g.Symbols.map Prod.fst).Nodup) :
    ((registerStep g obj).Symbols.map Prod.fst).Nodup := by
  unfold registerStep
  cases hpk : obj.pkgPath with
  | none => exact h
  | some p =>
    by_cases hsc : obj.inPkgScope
    · simp only [hsc, if_true]
      exact insertSymbol_keys_nodup g.Symbols _ _ h
    · simpa [hsc] using h

theorem registerDefinitions_keys_nodup (defs : List TypesObject) :
    ∀ g : DependencyGraph, (g.Symbols.map Prod.fst).Nodup →
      ((registerDefinitions g defs).Symbols.map Prod.fst).Nodup := by
  induction defs with
  | nil => intro g h; exact h
  | cons obj t ih =>
    intro g h
    rw [registerDefinitions_cons]
    exact ih (registerStep g obj) (registerStep_keys_nodup g obj h)

/-- Counterexample to C4: a method object (receiver base type `T`,
method name `M`, package `p`) gets id `p.M` from `symbolID` — the id
used both at registration and at reference recording — which does not
carry the receiver type name (the claimed local name is `T.M`, giving
`p.T.M`); moreover such an object is not registered at all (its scope
parent is not the package scope), while only the CALLER id built by
`callerSymbolID` carries the receiver. -/
theorem claim_C4_counterexample :
    symbolID ⟨some "p", "M", some "T", false, "t.go", "func"⟩ = "p.M"
    ∧ ("p.M" : String) ≠ "p.T.M"
    ∧ registerDefinitions NewDependencyGraph
        [⟨some "p", "M", some "T", false, "t.go", "func"⟩] = NewDependencyGraph
    ∧ callerSymbolID "p" ⟨"M", some [RecvAstExpr.star (RecvAstExpr.ident "T")]⟩
        = "p.T.M" := by
  refine ⟨rfl, by decide, by decide, rfl⟩

/-- C4 amended: ids built by `symbolID` are `(modulePath, bare name)`
and ignore any receiver; objects outside the package scope (methods
among them) are never registered; exactly one `Symbol` per id is kept
in the table (its key list stays duplicate-free); and only the caller
ids built by `callerSymbolID` for method declarations carry
`ReceiverTypeName.MethodName`, with one level of pointer indirection
stripped. -/
theorem claim_C4_amended (pkgPath m T : String) (obj : TypesObject) (r : Option String)
    (g : DependencyGraph) (defs : List TypesObject) :
    symbolID { obj with recvTypeName := r } = symbolID obj
    ∧ (callerSymbolID pkgPath ⟨m, some [RecvAstExpr.star (RecvAstExpr.ident T)]⟩
          = pkgPath ++ "." ++ T ++ "." ++ m
        ∧ callerSymbolID pkgPath ⟨m, some [RecvAstExpr.ident T]⟩
          = pkgPath ++ "." ++ T ++ "." ++ m
        ∧ callerSymbolID pkgPath ⟨m, none⟩ = pkgPath ++ "." ++ m)
    ∧ (obj.inPkgScope = false → registerDefinitions g [obj] = g)
    ∧ ((g.Symbols.map Prod.fst).Nodup →
        ((registerDefinitions g defs).Symbols.map Prod.fst).Nodup) := by
  refine ⟨rfl, ⟨rfl, rfl, rfl⟩, ?_, registerDefinitions_keys_nodup defs g⟩
  intro h
  rw [registerDefinitions_cons]
  show registerStep g obj = g
  unfold registerStep
  cases hpk : obj.pkgPath with
  | none => rfl
  | some p => simp [h]

/-- Witness for C4's amended statement: a method object is dropped by
registration, and registering the same id twice keeps the key list
duplicate-free. -/
theorem claim_C4_witness :
    registerDefinitions NewDependencyGraph
        [⟨some "p", "N", some "T", false, "t.go", "func"⟩] = NewDependencyGraph
    ∧ ((registerDefinitions NewDependencyGraph
        [⟨some "p", "A", none, true, "a.go", "func"⟩,
         ⟨some "p", "A", none, true, "a.go", "func"⟩]).Symbols.map Prod.fst).Nodup := by
  constructor
  · exact (claim_C4_amended "p" "m" "T" ⟨some "p", "N", some "T", false, "t.go", "func"⟩
      none NewDependencyGraph []).2.2.1 (by decide)
  · exact (claim_C4_amended "p" "m" "T" ⟨some "p", "N", some "T", false, "t.go", "func"⟩
      none NewDependencyGraph
      [⟨some "p", "A", none, true, "a.go", "func"⟩,
       ⟨some "p", "A", none, true, "a.go", "func"⟩]).2.2.2 (by decide)

/-- Concrete graph for the C5 counterexample: base file `a.go` defines
`p.A`; already-committed `g.go` defines `p.G` with `p.G → p.A`; pending
`f.go` defines `p.F` with `p.F → p.G`, so `p.A` is in `p.F`'s
transitive-dependency closure but `f.go` has no direct edge to a base
symbol. -/
def dgC5 : DependencyGraph :=
  { Symbols := [("p.A", ⟨"p.A", "A", "p", "func", "a.go"⟩),
                ("p.G", ⟨"p.G", "G", "p", "func", "g.go"⟩),
                ("p.F", ⟨"p.F", "F", "p", "func", "f.go"⟩)]
    FileSyms := [("a.go", ["p.A"]), ("g.go", ["p.G"]), ("f.go", ["p.F"])]
    OutEdges := [("p.F", ["p.G"]), ("p.G", ["p.A"])]
    InEdges := [("p.G", ["p.F"]), ("p.A", ["p.G"])] }

def csC5 : List String := ["a.go", "f.go"]

/-- Counterexample to C5: `f.go` is a changeset file distinct from the
base, defines a symbol whose transitive-dependency closure contains the
base symbol `p.A`, and every transitive dependency of its symbols is the
base file, a non-changeset file, or itself (`canCommitWithBase` holds) —
yet `findDirectDependants` returns nothing, because the code only
collects files with a DIRECT reverse edge to a base symbol and `f.go`
reaches `p.A` only through committed `g.go`. -/
theorem claim_C5_counterexample :
    ("f.go" ≠ "a.go"
      ∧ csC5.contains "f.go" = true
      ∧ "p.F" ∈ lookupList dgC5.FileSyms "f.go"
      ∧ "p.A" ∈ lookupList dgC5.FileSyms "a.go"
      ∧ "p.A" ∈ dgC5.TransitiveDeps "p.F"
      ∧ canCommitWithBase dgC5 "f.go" "a.go" csC5 = true)
    ∧ findDirectDependants dgC5 "a.go" csC5 = [] := by decide

/-- C5 amended: when dependants are included, the files appended after
the base are exactly the changeset files `F ≠ base` that define a symbol
with a DIRECT dependency edge to some base-file symbol (a direct reverse
edge from a base symbol, not mere membership of a base symbol in the
transitive closure) and whose every transitive dependency is the base
file, a non-changeset file, or `F` itself; they are appended sorted
lexicographically. -/
theorem claim_C5_amended (dg : DependencyGraph) (baseFile : String) (cs : List String) :
    (∀ F, F ∈ findDirectDependants dg baseFile cs
      ↔ (F ≠ baseFile ∧ cs.contains F = true
          ∧ ∃ b ∈ lookupList dg.FileSyms baseFile, ∃ d ∈ lookupList dg.InEdges b,
              ∃ s, lookupSym dg.Symbols d = some s ∧ s.File = F)
        ∧ canCommitWithBase dg F baseFile cs = true)
    ∧ (findDirectDependants dg baseFile cs).Sorted (· ≤ ·)
    ∧ (∀ incl : Bool, buildCommittableSet dg baseFile cs incl
        = if incl then baseFile :: findDirectDependants dg baseFile cs else [baseFile])
    ∧ (∀ F, canCommitWithBase dg F baseFile cs = true
        ↔ ∀ symID ∈ lookupList dg.FileSyms F, ∀ depID ∈ dg.TransitiveDeps symID,
            ∀ depSym, lookupSym dg.Symbols depID = some depSym →
              depSym.File = F ∨ depSym.File = baseFile
                ∨ cs.contains depSym.File = false) :=
  ⟨fun F => mem_findDirectDependants_iff dg baseFile cs F,
   findDirectDependants_sorted dg baseFile cs,
   fun _ => rfl,
   fun F => canCommitWithBase_iff dg F baseFile cs⟩

/-- Concrete graph for the C8 counterexample: `f.go` defines `p.F`
depending on `p.X`, defined in `d/x.go`, a file under the untracked
directory `d` that the changeset set records as a whole. -/
def dgC8 : DependencyGraph :=
  { Symbols := [("p.F", ⟨"p.F", "F", "p", "func", "f.go"⟩),
                ("p.X", ⟨"p.X", "X", "p", "func", "d/x.go"⟩)]
    FileSyms := [("f.go", ["p.F"]), ("d/x.go", ["p.X"])]
    OutEdges := [("p.F", ["p.X"])]
    InEdges := [("p.X", ["p.F"])] }

def csC8 : List String := ["f.go", "d"]

/-- Counterexample to C8: the changeset set contains the directory `d`
and `f.go`'s dependency `p.X` is defined in `d/x.go`, which lies under
`d/` — the violation detector's `isNotStaged` does treat that path as a
member, but `isIndependent`'s changeset-membership check is a flat
lookup that misses it, so `f.go` is (wrongly, under the claim) reported
independent. -/
theorem claim_C8_counterexample :
    (isNotStaged "d/x.go" csC8 = true
      ∧ strStartsWith "d/x.go" (ensureTrailingSlash "d") = true
      ∧ csC8.contains "d" = true
      ∧ csC8.contains "d/x.go" = false
      ∧ "p.X" ∈ dgC8.TransitiveDeps "p.F"
      ∧ lookupSym dgC8.Symbols "p.X" = some ⟨"p.X", "X", "p", "func", "d/x.go"⟩
      ∧ ("d/x.go" : String) ≠ "f.go")
    ∧ isIndependent dgC8 "f.go" csC8 = true := by decide

/-- C8 amended: only the violation detector's `isNotStaged` performs the
directory-prefix fallback; the committable selector's changeset
membership checks in `isIndependent` and `canCommitWithBase` are exact
set lookups (`contains`) with no prefix matching. -/
theorem claim_C8_membership_checks (dg : DependencyGraph) (f base : String)
    (s cs : List String) :
    (isNotStaged f s = true
      ↔ f ∈ s ∨ ∃ dir ∈ s, strStartsWith f (ensureTrailingSlash dir) = true)
    ∧ (isIndependent dg f cs = true
      ↔ ∀ symID ∈ lookupList dg.FileSyms f, ∀ depID ∈ dg.TransitiveDeps symID,
          ∀ depSym, lookupSym dg.Symbols depID = some depSym →
            depSym.File = f ∨ cs.contains depSym.File = false)
    ∧ (canCommitWithBase dg f base cs = true
      ↔ ∀ symID ∈ lookupList dg.FileSyms f, ∀ depID ∈ dg.TransitiveDeps symID,
          ∀ depSym, lookupSym dg.Symbols depID = some depSym →
            depSym.File = f ∨ depSym.File = base
              ∨ cs.contains depSym.File = false) :=
  ⟨isNotStaged_iff f s, isIndependent_iff dg f cs, canCommitWithBase_iff dg f base cs⟩
